import Mathlib

/-!
Shallow embedding of the OpLog per-CPU logging engine of
`src/include/oplog.hh` (namespace `oplog` in the C++ source), together
with proofs about its merge, flush and synchronization operations.

Machine integers (`uint64_t` timestamps) are modelled as `Nat`: the code
only compares timestamps and never performs arithmetic on them, so no
overflow reasoning is needed.  A logged operation (`tsc_logger::op`) is a
timestamp together with a type-erased closure; the closure is modelled by
an opaque identifier `opid`, and executing operations is modelled by the
sequence of operation records appended to an `applied` trace.
-/

namespace Oplog


/-- One logged operation record (`tsc_logger::op`): the `tsc` timestamp
field plus the type-erased callback, modelled by an identifier. -/
structure Op where
  tsc : Nat
  opid : Nat
deriving DecidableEq

/-- `tsc_logger::compare_tsc(op1, op2)`: `op1->tsc < op2->tsc`. -/
def compare_tsc (op1 op2 : Op) : Bool :=
  op1.tsc < op2.tsc

/-- Non-strict timestamp order; a list is sorted w.r.t. the strict weak
order `compare_tsc` exactly when it is `Pairwise opLe`. -/
def opLe (a b : Op) : Prop :=
  a.tsc ≤ b.tsc

instance : DecidableRel opLe := fun a b => Nat.decLe a.tsc b.tsc

instance : IsTotal Op opLe := ⟨fun a b => Nat.le_total a.tsc b.tsc⟩

instance : IsTrans Op opLe := ⟨fun _ _ _ h1 h2 => Nat.le_trans h1 h2⟩

instance : IsRefl Op opLe := ⟨fun a => Nat.le_refl a.tsc⟩

/-- The contract of `std::sort(ops_.begin(), ops_.end(), compare_tsc)`
used by `tsc_logger::sort_ops`: the result is a permutation of the input
in which no adjacent (hence no ordered) pair violates the comparator.
The C++ standard guarantees nothing more: in particular `std::sort` is
NOT required to be stable, so any function satisfying this predicate is
a legitimate behaviour of `sort_ops`. -/
def isStdSortOf (f : List Op → List Op) : Prop :=
  ∀ l : List Op, (f l).Perm l ∧ (f l).Pairwise (fun a b => compare_tsc b a = false)

/-- A concrete conforming implementation of `std::sort` on operation
records (used to instantiate theorems about `sort_ops` at executable
inputs): insertion sort by timestamp. -/
def insSort : List Op → List Op :=
  List.insertionSort opLe

/-- A two-element logger content with equal timestamps, in insertion
order. -/
def tie01 : List Op :=
  [⟨1, 0⟩, ⟨1, 1⟩]

/-- Another conforming implementation of `std::sort`: it agrees with
`insSort` everywhere except on `tie01`, where it returns the (equally
validly sorted) list with the two equal-timestamp records swapped.
`std::sort` gives no stability guarantee, so a library is free to
behave like this. -/
def swapSort (l : List Op) : List Op :=
  if l = tie01 then [⟨1, 1⟩, ⟨1, 0⟩] else insSort l

/-- `tsc_logger::ops_before_max_tsc(max_tsc)`: walk the operation list
from the front and stop at the first record with `tsc >= max_tsc`; the
returned iterator is modelled as the index of that record, i.e. the
length of the scanned prefix. -/
def ops_before_max_tsc (ops : List Op) (max_tsc : Nat) : Nat :=
  (ops.takeWhile (fun o => decide (o.tsc < max_tsc))).length

/-! ### The k-way heap merge of `flush_finish` / `flush_finish_max_timestamp`

Both merges keep a `std::priority_queue` of cursor indices ordered by the
timestamp at each cursor's `next` iterator (`compare a b = tsc_a > tsc_b`,
so the top of the heap is a cursor whose head timestamp is minimal), pop
the top cursor, emit its head operation, advance it, and re-push it while
it is non-exhausted.  `popMin` models one round: it removes the head
operation of a cursor whose head timestamp is minimal among all non-empty
cursors and leaves that cursor's tail in place.  (For equal head
timestamps `std::priority_queue` does not specify which cursor pops
first; `popMin` picks the earliest such cursor.  No theorem below depends
on this tie choice.) -/
def popMin : List (List Op) → Option (Op × List (List Op))
  | [] => none
  | [] :: rest =>
    match popMin rest with
    | none => none
    | some (o, rest') => some (o, [] :: rest')
  | (a :: t) :: rest =>
    match popMin rest with
    | none => some (a, t :: rest)
    | some (o', rest') =>
      if a.tsc ≤ o'.tsc then some (a, t :: rest)
      else some (o', (a :: t) :: rest')

/-- The merge loop, with explicit fuel (each round emits one operation,
so `posns.flatten.length` rounds drain every cursor). -/
def kmerge : Nat → List (List Op) → List Op
  | 0, _ => []
  | fuel + 1, posns =>
    match popMin posns with
    | none => []
    | some (o, rest) => o :: kmerge fuel rest

/-- `tsc_logged_object::flush_finish` (oplog.hh lines 395-433),
parameterized by the behaviour `sort_ops` of `std::sort` (any function
satisfying `isStdSortOf`).  One call on the `pending_` vector: sort each
non-empty pending logger in place (`it->sort_ops()`), collect a cursor
per non-empty logger, k-way merge the cursors, run the merged operations
(`(*it)->run()`), then reset every pending logger and clear `pending_`.
Returns the sequence of operations run, in run order, together with the
final contents of `pending_`.  Note the two early returns in the source:
when `pending_` is empty, and when every pending logger holds no
operations (`posns.empty()`); in the second case `pending_` is NOT
cleared. -/
def flush_finish (sort_ops : List Op → List Op)
    (pending_ : List (List Op)) : List Op × List (List Op) :=
  if pending_.isEmpty then ([], pending_)
  else
    let sorted := pending_.map (fun l => if l.isEmpty then l else sort_ops l)
    let posns := sorted.filter (fun l => !l.isEmpty)
    if posns.isEmpty then ([], sorted)
    else
      (kmerge posns.flatten.length posns, [])

/-- The per-logger leftovers of `flush_finish_max_timestamp`: every
pending logger is sorted in place (`it->sort_ops()`, unconditionally this
time), and `pos.logger->ops_.erase(pos.logger->ops_.begin(), pos.end)`
erases the scanned prefix from each logger that produced a cursor.
Loggers that produced no cursor have `ops_before_max_tsc = 0`, so
uniformly dropping the `ops_before_max_tsc` count models the erasure. -/
def mfs_residues (sort_ops : List Op → List Op) (max_tsc : Nat)
    (pending_ : List (List Op)) : List (List Op) :=
  (pending_.map sort_ops).map (fun l => l.drop (ops_before_max_tsc l max_tsc))

/-- `mfs_logged_object::flush_finish_max_timestamp` (oplog.hh lines
455-503): like `flush_finish`, but each cursor stops at
`ops_before_max_tsc(max_tsc)`, consumed entries are erased from their
original pending loggers, and pending loggers left empty are removed
from `pending_`.  Early returns: `pending_` empty, and `posns` empty (no
operation below the bound) — in the latter case the loggers were already
sorted in place but nothing is erased or removed. -/
def flush_finish_max_timestamp (sort_ops : List Op → List Op)
    (max_tsc : Nat) (pending_ : List (List Op)) :
    List Op × List (List Op) :=
  if pending_.isEmpty then ([], pending_)
  else
    let sorted := pending_.map sort_ops
    let posns := sorted.filterMap (fun l =>
      if ops_before_max_tsc l max_tsc = 0 then none
      else some (l.take (ops_before_max_tsc l max_tsc)))
    if posns.isEmpty then ([], sorted)
    else
      (kmerge posns.flatten.length posns,
        (mfs_residues sort_ops max_tsc pending_).filter (fun l => !l.isEmpty))

/-! ### Object state

The per-object state visible to one `tsc_logged_object`, under the
sequential semantics the claims address (no concurrent writer): the
`cpus_` bitmap (bit per CPU), the logger content of each CPU's way
tagged for this object, the `pending_` vector, and the trace of
operations run so far (`op::run()` calls, in order). -/

@[ext]
structure TscState where
  cpus_ : List Bool
  ways : List (List Op)
  pending_ : List (List Op)
  applied : List Op
deriving DecidableEq

/-- One gather scan of `logged_object::synchronize` (oplog.hh 148-166):
for every CPU whose bit is set in `cpus_`, take the way lock, flush the
way's logger (`tsc_logged_object::flush_logger` moves it into `pending_`
and resets it), and clear the CPU's bit.  With no concurrent writer the
first scan clears every set bit and the second scan finds `cpus_` empty
and exits the loop, so the whole loop is one `gather_pass` (which is the
identity when no bit is set). -/
def gather_pass (s : TscState) : TscState where
  cpus_ := s.cpus_.map (fun b => if b then false else b)
  ways := (List.range s.cpus_.length).map (fun i =>
    if s.cpus_.getD i false then [] else s.ways.getD i [])
  pending_ := s.pending_ ++ (List.range s.cpus_.length).filterMap (fun i =>
    if s.cpus_.getD i false then some (s.ways.getD i []) else none)
  applied := s.applied

/-- The `flush_finish()` call at the end of `synchronize`, acting on the
object state: the merged operations are run (appended to the trace) and
`pending_` is replaced by what `flush_finish` leaves of it. -/
def flush_finish_state (f : List Op → List Op) (s : TscState) : TscState :=
  { s with
    pending_ := (flush_finish f s.pending_).2
    applied := s.applied ++ (flush_finish f s.pending_).1 }

/-- `logged_object::synchronize` instantiated at `tsc_logged_object`
(oplog.hh 136-173), sequential semantics: gather every cached logger,
then `flush_finish`. -/
def synchronize (f : List Op → List Op) (s : TscState) : TscState :=
  flush_finish_state f (gather_pass s)

/-- One scan of `tsc_logged_object::clear_loggers` (oplog.hh 352-372):
for every CPU whose bit is set in `cpus_`, take the way lock and reset
the way's logger — without running anything.  Unlike the gather scan of
`synchronize`, the CPU's bit is NOT cleared. -/
def clear_loggers_iter (s : TscState) : TscState :=
  { s with
    ways := (List.range s.cpus_.length).map (fun i =>
      if s.cpus_.getD i false then [] else s.ways.getD i []) }

/-- The `while (1)` rescan loop of `clear_loggers`, with fuel: one
iteration per scan; `any` records whether the scan saw a set bit and the
loop exits only after a scan that saw none.  `none` means the fuel ran
out with the loop still running. -/
def clear_loggers_loop : Nat → TscState → Option TscState
  | 0, _ => none
  | fuel + 1, s =>
    if s.cpus_.any (fun b => b) then
      clear_loggers_loop fuel (clear_loggers_iter s)
    else some s

/-- `tsc_logged_object::~tsc_logged_object` (oplog.hh 436-439):
`pending_.clear()` then `clear_loggers()`. -/
def tsc_destructor (fuel : Nat) (s : TscState) : Option TscState :=
  clear_loggers_loop fuel { s with pending_ := [] }

/-- `tsc_logger::rdtscp()` (oplog.hh 269-274): the unqualified call
`rdtscp()` inside its own body resolves to the same static member
function, so the feature-present branch is a self-recursion that never
executes the hardware `rdtscp` instruction.  Fuel-indexed; `none` means
the recursion has not returned within the given depth. -/
def rdtscp (has_rdtscp : Bool) (rdtsc_serialized : Nat) : Nat → Option Nat
  | 0 => none
  | fuel + 1 =>
    if has_rdtscp then rdtscp has_rdtscp rdtsc_serialized fuel
    else some rdtsc_serialized

/-- `tsc_logger::push(cb)` (oplog.hh 292-308): read the TSC via
`rdtscp()` and append the one record `(tsc, cb)` at the end of `ops_`. -/
def push (has_rdtscp : Bool) (rdtsc_serialized : Nat) (cb : Nat)
    (ops_ : List Op) (fuel : Nat) : Option (List Op) :=
  (rdtscp has_rdtscp rdtsc_serialized fuel).map (fun t => ops_ ++ [⟨t, cb⟩])

/-- One per-CPU timestamp slot of `mfs_logged_object` (`struct mfs_tsc`,
oplog.hh 444-447): the stored `tsc_value` and the current value of its
sequence counter. -/
structure MfsTsc where
  tsc_value : Nat
  seq : Nat
deriving DecidableEq

/-- Modelled from the spec: the reader side of the sequence-counter
primitive (`seqcount`, in the repository's `include/seqlock.hh`, which
is not part of src/).  Per the spec, a writer brackets its single word
store with two counter bumps ("bump seqcount; write value; bump
seqcount") and "readers retry until they see an even-even observation":
`read_begin` snapshots an even count, `need_retry` reports that the
count has moved away from the snapshot, and `do_retry` re-snapshots and
reports true exactly when a retry is needed — i.e. it drives a do/while
read section, returning false immediately when the count is unchanged. -/
structure SeqReader where
  init : Nat
deriving DecidableEq

def read_begin (count : Nat) : SeqReader := ⟨count⟩

def need_retry (r : SeqReader) (count : Nat) : Bool := count != r.init

def do_retry (r : SeqReader) (count : Nat) : SeqReader × Bool :=
  if need_retry r count then (read_begin count, true) else (r, false)

/-- A reader loop `while (r.do_retry()) v = mfs_*_tsc[i].tsc_value;` of
`wait_synchronize` (oplog.hh 526-529) under no concurrent writer: the
sequence count is the constant `count` throughout, `v` starts as the
local initialization `u64 ..._tsc = 0`, and the body re-reads `value`
as long as `do_retry` reports true. -/
def read_tsc_loop : Nat → SeqReader → Nat → Nat → Nat → Nat
  | 0, _, _, _, acc => acc
  | fuel + 1, r, count, value, acc =>
    match do_retry r count with
    | (r', true) => read_tsc_loop fuel r' count value value
    | (_, false) => acc

/-- The pre-gather scan of `mfs_logged_object::wait_synchronize` for one
CPU (oplog.hh 522-540), with no concurrent writer to that CPU's
timestamp pair: the two reader loops produce `start_tsc` and `end_tsc`,
and the scan busy-waits (`while (!r_end.need_retry());`) exactly when
`end_tsc < start_tsc && start_tsc < wait_tsc`.  Returns
`(start_tsc, end_tsc, waits)`. -/
def wait_scan_cpu (startp endp : MfsTsc) (wait_tsc : Nat) (fuel : Nat) :
    Nat × Nat × Bool :=
  let r_start := read_begin startp.seq
  let r_end := read_begin endp.seq
  let start_tsc := read_tsc_loop fuel r_start startp.seq startp.tsc_value 0
  let end_tsc := read_tsc_loop fuel r_end endp.seq endp.tsc_value 0
  (start_tsc, end_tsc,
    decide (end_tsc < start_tsc) && decide (start_tsc < wait_tsc))

/-- The state of an `mfs_logged_object`: the `tsc_logged_object` portion
plus the two per-CPU timestamp-pair arrays. -/
@[ext]
structure MfsState where
  cpus_ : List Bool
  ways : List (List Op)
  pending_ : List (List Op)
  applied : List Op
  mfs_start_tsc : List MfsTsc
  mfs_end_tsc : List MfsTsc
deriving DecidableEq

/-- `mfs_logged_object::update_start_tsc(cpu, start_tsc)` (oplog.hh
506-509): `write_begin` bumps `mfs_start_tsc[cpu].seq` to odd, the value
is stored, and the writer guard's destruction at the end of the scope
bumps the count again — net effect, the count advances by two around a
single store of `tsc_value`.  Nothing else is touched. -/
def update_start_tsc (cpu : Nat) (start_tsc : Nat) (s : MfsState) :
    MfsState :=
  { s with
    mfs_start_tsc := s.mfs_start_tsc.set cpu
      (MfsTsc.mk start_tsc ((s.mfs_start_tsc.getD cpu ⟨0, 0⟩).seq + 2)) }

/-- `mfs_logged_object::update_end_tsc(cpu, end_tsc)` (oplog.hh
511-514): same as `update_start_tsc`, on `mfs_end_tsc[cpu]`. -/
def update_end_tsc (cpu : Nat) (end_tsc : Nat) (s : MfsState) : MfsState :=
  { s with
    mfs_end_tsc := s.mfs_end_tsc.set cpu
      (MfsTsc.mk end_tsc ((s.mfs_end_tsc.getD cpu ⟨0, 0⟩).seq + 2)) }

/-- A quiescent two-CPU `mfs_logged_object`: no cached loggers, nothing
pending, counters even (0), stored timestamps 0. -/
def mfs_s0 : MfsState :=
  ⟨[false, false], [[], []], [], [], [⟨0, 0⟩, ⟨0, 0⟩], [⟨0, 0⟩, ⟨0, 0⟩]⟩

/-! ### Theorems -/

theorem pairwise_compare_iff (l : List Op) :
    l.Pairwise (fun a b => compare_tsc b a = false) ↔ l.Pairwise opLe := by
  constructor
  · exact fun h => h.imp (by
      intro a b hab
      simp only [compare_tsc, decide_eq_false_iff_not, Nat.not_lt] at hab
      exact hab)
  · exact fun h => h.imp (by
      intro a b hab
      simp only [compare_tsc, decide_eq_false_iff_not, Nat.not_lt]
      exact hab)

theorem insSort_spec : isStdSortOf insSort := by
  intro l
  refine ⟨List.perm_insertionSort opLe l, ?_⟩
  rw [pairwise_compare_iff]
  exact List.sorted_insertionSort opLe l

theorem swapSort_spec : isStdSortOf swapSort := by
  intro l
  by_cases h : l = tie01
  · subst h
    constructor
    · simp only [swapSort, if_pos rfl]
      decide
    · simp only [swapSort, if_pos rfl]
      decide
  · simpa only [swapSort, if_neg h] using insSort_spec l

theorem ops_before_le_length (ops : List Op) (max_tsc : Nat) :
    ops_before_max_tsc ops max_tsc ≤ ops.length := by
  unfold ops_before_max_tsc
  exact (ops.takeWhile_prefix _).length_le

/-- On a timestamp-sorted list the scanned prefix is exactly the set of
records strictly below the bound. -/
theorem takeWhile_eq_filter_of_sorted (m : Nat) :
    ∀ l : List Op, l.Pairwise opLe →
      l.takeWhile (fun o => decide (o.tsc < m)) =
        l.filter (fun o => decide (o.tsc < m)) := by
  intro l
  induction l with
  | nil => intro _; rfl
  | cons a t ih =>
    intro hp
    rcases List.pairwise_cons.mp hp with ⟨ha, ht⟩
    by_cases ham : a.tsc < m
    · simp [List.takeWhile_cons, List.filter_cons, ham, ih ht]
    · have hnone : ∀ x ∈ t, ¬ x.tsc < m := fun x hx hxm =>
        ham (Nat.lt_of_le_of_lt (ha x hx) hxm)
      have hfil : t.filter (fun o => decide (o.tsc < m)) = [] :=
        List.filter_eq_nil_iff.mpr (by
          intro x hx
          simpa using hnone x hx)
      simp [List.takeWhile_cons, List.filter_cons, ham, hfil]

theorem dropWhile_eq_filter_of_sorted (m : Nat) :
    ∀ l : List Op, l.Pairwise opLe →
      l.dropWhile (fun o => decide (o.tsc < m)) =
        l.filter (fun o => !decide (o.tsc < m)) := by
  intro l
  induction l with
  | nil => intro _; rfl
  | cons a t ih =>
    intro hp
    rcases List.pairwise_cons.mp hp with ⟨ha, ht⟩
    by_cases ham : a.tsc < m
    · simp [List.dropWhile_cons, List.filter_cons, ham, ih ht]
    · have hnone : ∀ x ∈ t, ¬ x.tsc < m := fun x hx hxm =>
        ham (Nat.lt_of_le_of_lt (ha x hx) hxm)
      have hfil : t.filter (fun o => !decide (o.tsc < m)) = t :=
        List.filter_eq_self.mpr (by
          intro x hx
          simpa using hnone x hx)
      simp [List.dropWhile_cons, List.filter_cons, ham, hfil]

theorem take_ops_before_eq_takeWhile (l : List Op) (m : Nat) :
    l.take (ops_before_max_tsc l m) =
      l.takeWhile (fun o => decide (o.tsc < m)) := by
  have h := List.take_left (l.takeWhile (fun o => decide (o.tsc < m)))
    (l.dropWhile (fun o => decide (o.tsc < m)))
  rw [List.takeWhile_append_dropWhile] at h
  exact h

theorem drop_ops_before_eq_dropWhile (l : List Op) (m : Nat) :
    l.drop (ops_before_max_tsc l m) =
      l.dropWhile (fun o => decide (o.tsc < m)) := by
  have h := List.drop_left (l.takeWhile (fun o => decide (o.tsc < m)))
    (l.dropWhile (fun o => decide (o.tsc < m)))
  rw [List.takeWhile_append_dropWhile] at h
  exact h

theorem popMin_eq_none_of_forall_nil :
    ∀ posns : List (List Op), (∀ l ∈ posns, l = []) → popMin posns = none
  | [], _ => rfl
  | l :: rest, hall => by
    have hl : l = [] := hall l (List.mem_cons_self _ _)
    subst hl
    have hr : popMin rest = none :=
      popMin_eq_none_of_forall_nil rest
        (fun l hl => hall l (List.mem_cons_of_mem _ hl))
    simp [popMin, hr]

theorem forall_nil_of_popMin_eq_none :
    ∀ posns : List (List Op), popMin posns = none → ∀ l ∈ posns, l = [] := by
  intro posns
  induction posns with
  | nil => intro _ l hl; cases hl
  | cons l rest ih =>
    intro h
    cases l with
    | nil =>
      cases htl : popMin rest with
      | none =>
        intro x hx
        rcases List.mem_cons.mp hx with hx | hx
        · exact hx
        · exact ih htl x hx
      | some p =>
        obtain ⟨o, r⟩ := p
        simp only [popMin, htl] at h
        cases h
    | cons a t =>
      cases htl : popMin rest with
      | none =>
        simp only [popMin, htl] at h
        cases h
      | some p =>
        obtain ⟨o, r⟩ := p
        simp only [popMin, htl] at h
        by_cases hle : a.tsc ≤ o.tsc
        · rw [if_pos hle] at h; cases h
        · rw [if_neg hle] at h; cases h

theorem popMin_none_iff (posns : List (List Op)) :
    popMin posns = none ↔ ∀ l ∈ posns, l = [] :=
  ⟨forall_nil_of_popMin_eq_none posns, popMin_eq_none_of_forall_nil posns⟩

theorem popMin_perm {posns : List (List Op)} {o : Op}
    {rest : List (List Op)} (h : popMin posns = some (o, rest)) :
    posns.flatten.Perm (o :: rest.flatten) := by
  induction posns generalizing o rest with
  | nil => cases h
  | cons l tl ih =>
    cases l with
    | nil =>
      cases htl : popMin tl with
      | none =>
        simp only [popMin, htl] at h
        cases h
      | some p =>
        obtain ⟨o', rest'⟩ := p
        simp only [popMin, htl] at h
        cases h
        simpa using ih htl
    | cons a t =>
      cases htl : popMin tl with
      | none =>
        simp only [popMin, htl] at h
        cases h
        simp
      | some p =>
        obtain ⟨o', rest'⟩ := p
        simp only [popMin, htl] at h
        by_cases hle : a.tsc ≤ o'.tsc
        · rw [if_pos hle] at h
          cases h
          simp
        · rw [if_neg hle] at h
          cases h
          simp only [List.flatten_cons]
          exact ((ih htl).append_left (a :: t)).trans List.perm_middle

theorem popMin_min {posns : List (List Op)} {o : Op} {rest : List (List Op)}
    (hs : ∀ l ∈ posns, l.Pairwise opLe)
    (h : popMin posns = some (o, rest)) :
    ∀ x ∈ posns.flatten, o.tsc ≤ x.tsc := by
  induction posns generalizing o rest with
  | nil => cases h
  | cons l tl ih =>
    have hstl : ∀ l ∈ tl, l.Pairwise opLe := fun l hl =>
      hs l (List.mem_cons_of_mem _ hl)
    cases l with
    | nil =>
      cases htl : popMin tl with
      | none =>
        simp only [popMin, htl] at h
        cases h
      | some p =>
        obtain ⟨o', rest'⟩ := p
        simp only [popMin, htl] at h
        cases h
        intro x hx
        simp only [List.flatten_cons, List.nil_append] at hx
        exact ih hstl htl x hx
    | cons a t =>
      have hat : (a :: t).Pairwise opLe := hs _ (List.mem_cons_self _ _)
      have hhead : ∀ x ∈ a :: t, a.tsc ≤ x.tsc := by
        intro x hx
        rcases List.mem_cons.mp hx with hx | hx
        · rw [hx]
        · exact (List.pairwise_cons.mp hat).1 x hx
      cases htl : popMin tl with
      | none =>
        simp only [popMin, htl] at h
        cases h
        intro x hx
        rw [List.flatten_cons] at hx
        rcases List.mem_append.mp hx with hx | hx
        · exact hhead x hx
        · have hnil : tl.flatten = [] := by
            rw [List.flatten_eq_nil_iff]
            exact (popMin_none_iff tl).mp htl
          rw [hnil] at hx
          cases hx
      | some p =>
        obtain ⟨o', rest'⟩ := p
        have hmin' := ih hstl htl
        simp only [popMin, htl] at h
        by_cases hle : a.tsc ≤ o'.tsc
        · rw [if_pos hle] at h
          cases h
          intro x hx
          rw [List.flatten_cons] at hx
          rcases List.mem_append.mp hx with hx | hx
          · exact hhead x hx
          · exact Nat.le_trans hle (hmin' x hx)
        · rw [if_neg hle] at h
          cases h
          have ho'a := Nat.le_of_lt (Nat.lt_of_not_le hle)
          intro x hx
          rw [List.flatten_cons] at hx
          rcases List.mem_append.mp hx with hx | hx
          · exact Nat.le_trans ho'a (hhead x hx)
          · exact hmin' x hx

theorem popMin_sorted {posns : List (List Op)} {o : Op}
    {rest : List (List Op)} (hs : ∀ l ∈ posns, l.Pairwise opLe)
    (h : popMin posns = some (o, rest)) :
    ∀ l ∈ rest, l.Pairwise opLe := by
  induction posns generalizing o rest with
  | nil => cases h
  | cons l tl ih =>
    have hstl : ∀ l ∈ tl, l.Pairwise opLe := fun l hl =>
      hs l (List.mem_cons_of_mem _ hl)
    cases l with
    | nil =>
      cases htl : popMin tl with
      | none =>
        simp only [popMin, htl] at h
        cases h
      | some p =>
        obtain ⟨o', rest'⟩ := p
        simp only [popMin, htl] at h
        cases h
        intro l hl
        rcases List.mem_cons.mp hl with hl | hl
        · rw [hl]; exact List.Pairwise.nil
        · exact ih hstl htl l hl
    | cons a t =>
      have hat : (a :: t).Pairwise opLe := hs _ (List.mem_cons_self _ _)
      cases htl : popMin tl with
      | none =>
        simp only [popMin, htl] at h
        cases h
        intro l hl
        rcases List.mem_cons.mp hl with hl | hl
        · rw [hl]; exact (List.pairwise_cons.mp hat).2
        · exact hstl l hl
      | some p =>
        obtain ⟨o', rest'⟩ := p
        simp only [popMin, htl] at h
        by_cases hle : a.tsc ≤ o'.tsc
        · rw [if_pos hle] at h
          cases h
          intro l hl
          rcases List.mem_cons.mp hl with hl | hl
          · rw [hl]; exact (List.pairwise_cons.mp hat).2
          · exact hstl l hl
        · rw [if_neg hle] at h
          cases h
          intro l hl
          rcases List.mem_cons.mp hl with hl | hl
          · rw [hl]; exact hat
          · exact ih hstl htl l hl

theorem kmerge_mem {fuel : Nat} {posns : List (List Op)} {x : Op}
    (h : x ∈ kmerge fuel posns) : x ∈ posns.flatten := by
  induction fuel generalizing posns with
  | zero => cases h
  | succ fuel ih =>
    rw [kmerge] at h
    cases hp : popMin posns with
    | none => rw [hp] at h; cases h
    | some p =>
      obtain ⟨o, rest⟩ := p
      rw [hp] at h
      have hperm := popMin_perm hp
      rcases List.mem_cons.mp h with hx | hx
      · rw [hx]
        exact hperm.symm.subset (List.mem_cons_self _ _)
      · exact hperm.symm.subset (List.mem_cons_of_mem _ (ih hx))

/-- Whatever fuel is given, the merge loop emits operations in
non-decreasing timestamp order provided each cursor is sorted (this is
the property behind the `assert(std::is_sorted(merged_ops ...))` in the
source). -/
theorem kmerge_sorted {fuel : Nat} {posns : List (List Op)}
    (hs : ∀ l ∈ posns, l.Pairwise opLe) :
    (kmerge fuel posns).Pairwise opLe := by
  induction fuel generalizing posns with
  | zero => exact List.Pairwise.nil
  | succ fuel ih =>
    rw [kmerge]
    cases hp : popMin posns with
    | none => exact List.Pairwise.nil
    | some p =>
      obtain ⟨o, rest⟩ := p
      refine List.pairwise_cons.mpr ⟨?_, ih (popMin_sorted hs hp)⟩
      intro x hx
      have hxj : x ∈ posns.flatten :=
        (popMin_perm hp).symm.subset (List.mem_cons_of_mem _ (kmerge_mem hx))
      exact popMin_min hs hp x hxj

/-- With enough fuel the merge emits exactly the operations held by the
cursors. -/
theorem kmerge_perm {fuel : Nat} {posns : List (List Op)}
    (hfuel : posns.flatten.length ≤ fuel) :
    (kmerge fuel posns).Perm posns.flatten := by
  induction fuel generalizing posns with
  | zero =>
    rw [kmerge]
    have h0 : posns.flatten = [] := List.length_eq_zero.mp (Nat.le_zero.mp hfuel)
    rw [h0]
  | succ fuel ih =>
    rw [kmerge]
    cases hp : popMin posns with
    | none =>
      have h0 : posns.flatten = [] := by
        rw [List.flatten_eq_nil_iff]
        exact (popMin_none_iff posns).mp hp
      rw [h0]
    | some p =>
      obtain ⟨o, rest⟩ := p
      have hperm := popMin_perm hp
      have hlen : rest.flatten.length + 1 = posns.flatten.length := by
        have hl := hperm.length_eq
        simpa using hl.symm
      have hfi : rest.flatten.length ≤ fuel := by omega
      exact ((ih hfi).cons o).trans hperm.symm

theorem getD_mem_of_lt (l : List Op) (d : Op) :
    ∀ {j : Nat}, j < l.length → l.getD j d ∈ l := by
  induction l with
  | nil => intro j h; cases h
  | cons a t ih =>
    intro j h
    cases j with
    | zero => exact List.mem_cons_self _ _
    | succ j =>
      exact List.mem_cons_of_mem _ (ih (Nat.lt_of_succ_lt_succ h))

theorem flatten_filter_nonempty (L : List (List Op)) :
    (L.filter (fun l => !l.isEmpty)).flatten = L.flatten := by
  induction L with
  | nil => rfl
  | cons l t ih =>
    cases l with
    | nil => simpa [List.filter_cons] using ih
    | cons a s => simp [List.filter_cons, ih]

theorem flatten_map_perm {g : List Op → List Op}
    (hg : ∀ l, (g l).Perm l) (L : List (List Op)) :
    (L.map g).flatten.Perm L.flatten := by
  induction L with
  | nil => exact List.Perm.refl _
  | cons l t ih => simpa using (hg l).append ih

theorem flatten_map_filter (p : Op → Bool) (L : List (List Op)) :
    (L.map (fun l => l.filter p)).flatten = L.flatten.filter p := by
  induction L with
  | nil => rfl
  | cons l t ih =>
    simp only [List.map_cons, List.flatten_cons, List.filter_append, ih]

theorem sorted_of_isStdSortOf {f : List Op → List Op}
    (hf : isStdSortOf f) (l : List Op) : (f l).Pairwise opLe :=
  (pairwise_compare_iff _).mp (hf l).2

theorem ne_nil_of_isStdSortOf {f : List Op → List Op}
    (hf : isStdSortOf f) {l : List Op} (h : l ≠ []) : f l ≠ [] := by
  intro hfl
  have hperm := (hf l).1
  rw [hfl] at hperm
  exact h hperm.symm.eq_nil

/-- C6 (amended): `sort_ops()` sorts the operation sequence by timestamp:
for any behaviour `f` of `std::sort` with comparator `compare_tsc`, the
result is a permutation of the input with non-decreasing timestamps.
(The stability part of the original claim is refuted by
`sort_ops_stability_cex`.) -/
theorem sort_ops_sorts (f : List Op → List Op) (hf : isStdSortOf f)
    (ops_ : List Op) : (f ops_).Perm ops_ ∧ (f ops_).Pairwise opLe :=
  ⟨(hf ops_).1, sorted_of_isStdSortOf hf ops_⟩

theorem sort_ops_sorts_witness :
    (insSort [⟨2, 0⟩, ⟨1, 1⟩]).Perm [⟨2, 0⟩, ⟨1, 1⟩] ∧
      (insSort [⟨2, 0⟩, ⟨1, 1⟩]).Pairwise opLe :=
  sort_ops_sorts insSort insSort_spec [⟨2, 0⟩, ⟨1, 1⟩]

/-- C6 (counterexample to the claim as stated): `std::sort` is not a
stable sort.  `swapSort` is a conforming behaviour of
`std::sort(..., compare_tsc)` — `isStdSortOf swapSort` — yet on the
logger content `tie01 = [(tsc 1, op 0), (tsc 1, op 1)]` it reverses the
relative order of the two equal-timestamp operations. -/
theorem sort_ops_stability_cex :
    isStdSortOf swapSort ∧ swapSort tie01 = [⟨1, 1⟩, ⟨1, 0⟩] ∧
      tie01 = [⟨1, 0⟩, ⟨1, 1⟩] :=
  ⟨swapSort_spec, by decide, rfl⟩

/-- C7 (amended): `ops_before_max_tsc(max_tsc)` always returns a
position below which every operation has timestamp strictly less than
`max_tsc`; when the operation sequence is sorted by timestamp (as it is
at the call site inside `flush_finish_max_timestamp`, right after
`sort_ops`), the position moreover partitions the sequence: every
operation at or after it has timestamp at least `max_tsc`.  (For an
unsorted logger the partition half fails: `ops_before_max_tsc_cex`.) -/
theorem ops_before_max_tsc_partition (l : List Op) (m : Nat) :
    (∀ i, i < ops_before_max_tsc l m → (l.getD i ⟨0, 0⟩).tsc < m) ∧
      (l.Pairwise opLe → ∀ j, j < l.length → ops_before_max_tsc l m ≤ j →
        m ≤ (l.getD j ⟨0, 0⟩).tsc) := by
  constructor
  · induction l with
    | nil =>
      intro i hi
      simp [ops_before_max_tsc] at hi
    | cons a t ih =>
      intro i hi
      by_cases ham : a.tsc < m
      · cases i with
        | zero => simpa using ham
        | succ i =>
          have hk : ops_before_max_tsc (a :: t) m =
              ops_before_max_tsc t m + 1 := by
            simp [ops_before_max_tsc, List.takeWhile_cons, ham]
          rw [hk] at hi
          simpa using ih i (Nat.lt_of_succ_lt_succ hi)
      · have hk : ops_before_max_tsc (a :: t) m = 0 := by
          simp [ops_before_max_tsc, List.takeWhile_cons, ham]
        rw [hk] at hi
        cases hi
  · induction l with
    | nil =>
      intro _ j hj
      cases hj
    | cons a t ih =>
      intro hp j hj hk
      rcases List.pairwise_cons.mp hp with ⟨ha, ht⟩
      by_cases ham : a.tsc < m
      · have hk1 : ops_before_max_tsc (a :: t) m =
            ops_before_max_tsc t m + 1 := by
          simp [ops_before_max_tsc, List.takeWhile_cons, ham]
        cases j with
        | zero => rw [hk1] at hk; cases hk
        | succ j =>
          rw [hk1] at hk
          simpa using ih ht j (Nat.lt_of_succ_lt_succ hj)
            (Nat.le_of_succ_le_succ hk)
      · cases j with
        | zero => simpa using Nat.le_of_not_lt ham
        | succ j =>
          have hmem : t.getD j ⟨0, 0⟩ ∈ t :=
            getD_mem_of_lt t _ (Nat.lt_of_succ_lt_succ hj)
          have h1 : m ≤ a.tsc := Nat.le_of_not_lt ham
          have h2 : a.tsc ≤ (t.getD j ⟨0, 0⟩).tsc := ha _ hmem
          simpa using Nat.le_trans h1 h2

theorem ops_before_max_tsc_partition_witness :
    3 ≤ (([⟨1, 0⟩, ⟨5, 1⟩] : List Op).getD 1 ⟨0, 0⟩).tsc ∧
      (([⟨1, 0⟩, ⟨5, 1⟩] : List Op).getD 0 ⟨0, 0⟩).tsc < 3 :=
  ⟨(ops_before_max_tsc_partition [⟨1, 0⟩, ⟨5, 1⟩] 3).2 (by decide) 1
      (by decide) (by decide),
    (ops_before_max_tsc_partition [⟨1, 0⟩, ⟨5, 1⟩] 3).1 0 (by decide)⟩

/-- C7 (counterexample to the claim as stated, which quantifies over a
`tsc_logger` in any state): on the unsorted logger content
`[(tsc 5, op 0), (tsc 0, op 1)]` with `max_tsc = 3` the scan stops at
position 0, yet the operation at position 1 — at/after the returned
position — has timestamp `0 < 3`, so the suffix is not all `>= max_tsc`. -/
theorem ops_before_max_tsc_cex :
    ops_before_max_tsc [⟨5, 0⟩, ⟨0, 1⟩] 3 = 0 ∧
      (([⟨5, 0⟩, ⟨0, 1⟩] : List Op).getD 1 ⟨0, 0⟩).tsc < 3 := by
  decide

/-- C1 (amended): for every behaviour `f` of `std::sort`, the operations
executed by `tsc_logged_object::flush_finish` form a single sequence
that is a permutation of all operations of the gathered pending loggers
and is ascending (non-decreasing) in timestamp across all of them.
(Equal-timestamp operations pushed into the same logger are NOT
guaranteed to run in insertion order, because `sort_ops` uses the
unstable `std::sort`: `flush_finish_tie_order_cex`.) -/
theorem flush_finish_ascending (f : List Op → List Op)
    (hf : isStdSortOf f) (pending_ : List (List Op)) :
    ((flush_finish f pending_).1).Perm pending_.flatten ∧
      ((flush_finish f pending_).1).Pairwise opLe := by
  cases pending_ with
  | nil => exact ⟨List.Perm.refl _, List.Pairwise.nil⟩
  | cons p ps =>
    rw [flush_finish]
    simp only [List.isEmpty_cons, Bool.false_eq_true, if_false]
    set g : List Op → List Op := fun l => if l.isEmpty then l else f l with hg
    have hgperm : ∀ l, (g l).Perm l := by
      intro l
      rw [hg]
      by_cases h : l.isEmpty
      · simp [h]
      · simp only [h, if_false]
        exact (hf l).1
    set sorted := (p :: ps).map g with hsorted
    set posns := sorted.filter (fun l => !l.isEmpty) with hposns
    by_cases hp : posns.isEmpty
    · simp only [hp, if_true]
      have hall : ∀ l ∈ sorted, l = [] := by
        intro l hl
        have := List.filter_eq_nil_iff.mp (List.isEmpty_iff.mp hp) l hl
        simpa using this
      have hallp : ∀ l ∈ (p :: ps), l = [] := by
        intro l hl
        have hgl : g l = [] := hall (g l) (List.mem_map_of_mem g hl)
        have hperm := hgperm l
        rw [hgl] at hperm
        exact hperm.symm.eq_nil
      have : (p :: ps).flatten = [] := by
        rw [List.flatten_eq_nil_iff]
        exact hallp
      rw [this]
      exact ⟨List.Perm.refl _, List.Pairwise.nil⟩
    · simp only [hp, Bool.false_eq_true, if_false]
      constructor
      · have h1 : (kmerge posns.flatten.length posns).Perm posns.flatten :=
          kmerge_perm (Nat.le_refl _)
        have h2 : posns.flatten = sorted.flatten := by
          rw [hposns]
          exact flatten_filter_nonempty sorted
        have h3 : sorted.flatten.Perm (p :: ps).flatten := by
          rw [hsorted]
          exact flatten_map_perm hgperm (p :: ps)
        rw [← h2] at h3
        exact h1.trans h3
      · refine kmerge_sorted ?_
        intro l hl
        have hl' : l ∈ sorted := List.mem_of_mem_filter hl
        rw [hsorted] at hl'
        rcases List.mem_map.mp hl' with ⟨l0, _, rfl⟩
        rw [hg]
        by_cases h : l0.isEmpty
        · simp only [h, if_true]
          rw [List.isEmpty_iff.mp h]
          exact List.Pairwise.nil
        · simp only [h, if_false]
          exact sorted_of_isStdSortOf hf l0

theorem flush_finish_ascending_witness :
    ((flush_finish insSort [[⟨5, 0⟩, ⟨15, 2⟩], [⟨10, 1⟩]]).1).Perm
        ([[⟨5, 0⟩, ⟨15, 2⟩], [⟨10, 1⟩]] : List (List Op)).flatten ∧
      ((flush_finish insSort [[⟨5, 0⟩, ⟨15, 2⟩], [⟨10, 1⟩]]).1).Pairwise
        opLe :=
  flush_finish_ascending insSort insSort_spec [[⟨5, 0⟩, ⟨15, 2⟩], [⟨10, 1⟩]]

/-- C1 (counterexample to the claim as stated): with the conforming
`std::sort` behaviour `swapSort`, a `synchronize` whose gather produced
the single pending logger `tie01 = [(tsc 1, op 0), (tsc 1, op 1)]`
(two equal-timestamp operations pushed into the same logger, in
insertion order op 0 then op 1) makes `flush_finish` run op 1 before
op 0. -/
theorem flush_finish_tie_order_cex :
    isStdSortOf swapSort ∧
      (flush_finish swapSort [tie01]).1 = [⟨1, 1⟩, ⟨1, 0⟩] ∧
      tie01 = [⟨1, 0⟩, ⟨1, 1⟩] :=
  ⟨swapSort_spec, by decide, rfl⟩

/-- C8 (amended): `tsc_logged_object::flush_finish` leaves `pending_`
empty whenever `pending_` was empty on entry or some pending logger held
at least one operation.  (In the remaining case — `pending_` non-empty
but every pending logger empty — the source returns early from
`posns.empty()` without clearing `pending_`:
`flush_finish_empty_loggers_cex`.) -/
theorem flush_finish_clears_pending (f : List Op → List Op)
    (hf : isStdSortOf f) (pending_ : List (List Op))
    (h : pending_ = [] ∨ ∃ l ∈ pending_, l ≠ []) :
    (flush_finish f pending_).2 = [] := by
  rcases h with h | ⟨l0, hl0, hne⟩
  · subst h
    rfl
  · cases pending_ with
    | nil => cases hl0
    | cons p ps =>
      rw [flush_finish]
      simp only [List.isEmpty_cons, Bool.false_eq_true, if_false]
      set g : List Op → List Op := fun l => if l.isEmpty then l else f l
        with hg
      set sorted := (p :: ps).map g with hsorted
      set posns := sorted.filter (fun l => !l.isEmpty) with hposns
      have hgl0 : g l0 = f l0 := by
        rw [hg]
        simp [List.isEmpty_iff, hne]
      have hmem : g l0 ∈ posns := by
        rw [hposns]
        refine List.mem_filter.mpr ⟨List.mem_map_of_mem g hl0, ?_⟩
        rw [hgl0]
        simpa [List.isEmpty_iff] using ne_nil_of_isStdSortOf hf hne
      have hp : ¬ posns.isEmpty = true := by
        intro habs
        rw [List.isEmpty_iff.mp habs] at hmem
        cases hmem
      simp [hp]

theorem flush_finish_clears_pending_witness :
    (flush_finish insSort [[⟨1, 0⟩]]).2 = [] :=
  flush_finish_clears_pending insSort insSort_spec [[⟨1, 0⟩]]
    (Or.inr ⟨[⟨1, 0⟩], by decide, by decide⟩)

/-- C8 (counterexample to the claim as stated): on entry
`pending_ = [{}]` — one pending logger with no operations, as produced
by flushing a way whose logger was acquired but never pushed to — the
`posns.empty()` early return leaves `pending_` non-empty. -/
theorem flush_finish_empty_loggers_cex :
    (flush_finish insSort [[]]).2 = [[]] ∧
      ([[]] : List (List Op)) ≠ [] := by
  exact ⟨rfl, by decide⟩

theorem ops_before_eq_zero_iff (m : Nat) {l : List Op}
    (hl : l.Pairwise opLe) :
    ops_before_max_tsc l m = 0 ↔
      l.filter (fun o => decide (o.tsc < m)) = [] := by
  unfold ops_before_max_tsc
  rw [takeWhile_eq_filter_of_sorted m l hl]
  exact List.length_eq_zero

theorem sorted_mem_map {f : List Op → List Op} (hf : isStdSortOf f)
    {P : List (List Op)} : ∀ l ∈ P.map f, l.Pairwise opLe := by
  intro l hl
  rcases List.mem_map.mp hl with ⟨l0, _, rfl⟩
  exact sorted_of_isStdSortOf hf l0

/-- The cursors collected by `flush_finish_max_timestamp` hold, jointly,
exactly the below-bound operations of the (sorted) pending loggers. -/
theorem filterMap_take_flatten (m : Nat) (L : List (List Op))
    (hs : ∀ l ∈ L, l.Pairwise opLe) :
    (L.filterMap (fun l =>
        if ops_before_max_tsc l m = 0 then none
        else some (l.take (ops_before_max_tsc l m)))).flatten =
      L.flatten.filter (fun o => decide (o.tsc < m)) := by
  induction L with
  | nil => rfl
  | cons l t ih =>
    have hl : l.Pairwise opLe := hs l (List.mem_cons_self _ _)
    have ht : ∀ x ∈ t, x.Pairwise opLe := fun x hx =>
      hs x (List.mem_cons_of_mem _ hx)
    have htake : l.take (ops_before_max_tsc l m) =
        l.filter (fun o => decide (o.tsc < m)) := by
      rw [take_ops_before_eq_takeWhile, takeWhile_eq_filter_of_sorted m l hl]
    by_cases hk : ops_before_max_tsc l m = 0
    · have hfil : l.filter (fun o => decide (o.tsc < m)) = [] :=
        (ops_before_eq_zero_iff m hl).mp hk
      simp only [List.filterMap_cons, hk, if_true, List.flatten_cons,
        List.filter_append, hfil, List.nil_append, ih ht]
    · simp only [List.filterMap_cons, hk, if_false, List.flatten_cons,
        List.filter_append, htake, ih ht]

theorem ffmt_posns_nil_case (f : List Op → List Op) (m : Nat)
    (P : List (List Op))
    (h : (P.map f).filterMap (fun l =>
        if ops_before_max_tsc l m = 0 then none
        else some (l.take (ops_before_max_tsc l m))) = []) :
    flush_finish_max_timestamp f m P = ([], P.map f) := by
  cases P with
  | nil => rfl
  | cons p ps =>
    rw [flush_finish_max_timestamp]
    simp only [List.isEmpty_cons, Bool.false_eq_true, if_false,
      List.map_cons] at h ⊢
    rw [h]
    simp

theorem ffmt_posns_ne_case (f : List Op → List Op) (m : Nat)
    (P : List (List Op))
    (h : (P.map f).filterMap (fun l =>
        if ops_before_max_tsc l m = 0 then none
        else some (l.take (ops_before_max_tsc l m))) ≠ []) :
    flush_finish_max_timestamp f m P =
      (kmerge ((P.map f).filterMap (fun l =>
          if ops_before_max_tsc l m = 0 then none
          else some (l.take (ops_before_max_tsc l m)))).flatten.length
        ((P.map f).filterMap (fun l =>
          if ops_before_max_tsc l m = 0 then none
          else some (l.take (ops_before_max_tsc l m)))),
        (mfs_residues f m P).filter (fun l => !l.isEmpty)) := by
  cases P with
  | nil => exact absurd rfl h
  | cons p ps =>
    rw [flush_finish_max_timestamp]
    simp only [List.isEmpty_cons, Bool.false_eq_true, if_false,
      List.map_cons] at h ⊢
    have hb : ¬ (((f p :: ps.map f).filterMap (fun l =>
        if ops_before_max_tsc l m = 0 then none
        else some (l.take (ops_before_max_tsc l m)))).isEmpty = true) := by
      simpa [List.isEmpty_iff] using h
    rw [if_neg hb]

theorem ffmt_ran_perm (f : List Op → List Op) (hf : isStdSortOf f)
    (m : Nat) (P : List (List Op)) :
    ((flush_finish_max_timestamp f m P).1).Perm
      (P.flatten.filter (fun o => decide (o.tsc < m))) := by
  have hA := filterMap_take_flatten m (P.map f) (sorted_mem_map hf)
  have hPf : ((P.map f).flatten.filter (fun o => decide (o.tsc < m))).Perm
      (P.flatten.filter (fun o => decide (o.tsc < m))) :=
    (flatten_map_perm (fun l => (hf l).1) P).filter _
  by_cases hnil : (P.map f).filterMap (fun l =>
      if ops_before_max_tsc l m = 0 then none
      else some (l.take (ops_before_max_tsc l m))) = []
  · rw [ffmt_posns_nil_case f m P hnil]
    have h0 : (P.map f).flatten.filter (fun o => decide (o.tsc < m)) = [] := by
      rw [← hA, hnil]
      rfl
    rw [h0] at hPf
    exact hPf
  · rw [ffmt_posns_ne_case f m P hnil]
    rw [← hA] at hPf
    exact (kmerge_perm (Nat.le_refl _)).trans hPf

theorem ffmt_ran_sorted (f : List Op → List Op) (hf : isStdSortOf f)
    (m : Nat) (P : List (List Op)) :
    ((flush_finish_max_timestamp f m P).1).Pairwise opLe := by
  by_cases hnil : (P.map f).filterMap (fun l =>
      if ops_before_max_tsc l m = 0 then none
      else some (l.take (ops_before_max_tsc l m))) = []
  · rw [ffmt_posns_nil_case f m P hnil]
    exact List.Pairwise.nil
  · rw [ffmt_posns_ne_case f m P hnil]
    refine kmerge_sorted ?_
    intro l' hl'
    rcases List.mem_filterMap.mp hl' with ⟨l, hlmem, hgl⟩
    by_cases hk : ops_before_max_tsc l m = 0
    · rw [if_pos hk] at hgl
      cases hgl
    · rw [if_neg hk] at hgl
      cases hgl
      exact (sorted_mem_map hf l hlmem).sublist (List.take_sublist _ _)

theorem mfs_residues_spec (f : List Op → List Op) (hf : isStdSortOf f)
    (m : Nat) (P : List (List Op)) (i : Nat) (h : i < P.length) :
    ((mfs_residues f m P).getD i []).Perm
      ((P.getD i []).filter (fun o => !decide (o.tsc < m))) := by
  have h1 : i < (P.map f).length := by simpa using h
  have h2 : i < ((P.map f).map
      (fun l => l.drop (ops_before_max_tsc l m))).length := by simpa using h
  rw [mfs_residues, List.getD_eq_getElem _ _ h2, List.getD_eq_getElem _ _ h,
    List.getElem_map, List.getElem_map]
  have hs : (f (P.getD i [])).Pairwise opLe := sorted_of_isStdSortOf hf _
  rw [List.getD_eq_getElem _ _ h] at hs
  rw [drop_ops_before_eq_dropWhile, dropWhile_eq_filter_of_sorted m _ hs]
  exact ((hf _).1).filter _

theorem ffmt_pending_flatten (f : List Op → List Op) (hf : isStdSortOf f)
    (m : Nat) (P : List (List Op)) :
    ((flush_finish_max_timestamp f m P).2).flatten.Perm
      (P.flatten.filter (fun o => !decide (o.tsc < m))) := by
  have hPf : ((P.map f).flatten.filter (fun o => !decide (o.tsc < m))).Perm
      (P.flatten.filter (fun o => !decide (o.tsc < m))) :=
    (flatten_map_perm (fun l => (hf l).1) P).filter _
  by_cases hnil : (P.map f).filterMap (fun l =>
      if ops_before_max_tsc l m = 0 then none
      else some (l.take (ops_before_max_tsc l m))) = []
  · rw [ffmt_posns_nil_case f m P hnil]
    have hall : ∀ l ∈ P.map f,
        l.filter (fun o => decide (o.tsc < m)) = [] := by
      intro l hl
      have hmem := List.filterMap_eq_nil_iff.mp hnil l hl
      have hk : ops_before_max_tsc l m = 0 := by
        by_cases hk0 : ops_before_max_tsc l m = 0
        · exact hk0
        · simp [hk0] at hmem
      exact (ops_before_eq_zero_iff m (sorted_mem_map hf l hl)).mp hk
    have heq : (P.map f).flatten.filter (fun o => !decide (o.tsc < m)) =
        (P.map f).flatten := by
      rw [List.filter_eq_self]
      intro x hx
      rcases List.mem_flatten.mp hx with ⟨l, hlmem, hxl⟩
      have hnotin := List.filter_eq_nil_iff.mp (hall l hlmem) x hxl
      simpa using hnotin
    rw [heq] at hPf
    exact hPf
  · rw [ffmt_posns_ne_case f m P hnil]
    rw [flatten_filter_nonempty]
    have hcong : (P.map f).map (fun l => l.drop (ops_before_max_tsc l m)) =
        (P.map f).map (fun l => l.filter (fun o => !decide (o.tsc < m))) := by
      apply List.map_congr_left
      intro l hl
      rw [drop_ops_before_eq_dropWhile,
        dropWhile_eq_filter_of_sorted m l (sorted_mem_map hf l hl)]
    rw [mfs_residues, hcong, flatten_map_filter]
    exact hPf

theorem ffmt_pending_eq (f : List Op → List Op) (hf : isStdSortOf f)
    (m : Nat) (P : List (List Op))
    (h : ∃ o ∈ P.flatten, o.tsc < m) :
    (flush_finish_max_timestamp f m P).2 =
      (mfs_residues f m P).filter (fun l => !l.isEmpty) := by
  obtain ⟨o, ho, hom⟩ := h
  rcases List.mem_flatten.mp ho with ⟨l0, hl0, hol0⟩
  have hofl : o ∈ f l0 := ((hf l0).1.symm.subset) hol0
  have hfil : o ∈ (f l0).filter (fun o => decide (o.tsc < m)) :=
    List.mem_filter.mpr ⟨hofl, by simpa using hom⟩
  have hk : ops_before_max_tsc (f l0) m ≠ 0 := by
    intro hk0
    rw [(ops_before_eq_zero_iff m (sorted_of_isStdSortOf hf l0)).mp hk0]
      at hfil
    cases hfil
  have hmemfm : f l0 ∈ P.map f := List.mem_map_of_mem f hl0
  have hcur : (f l0).take (ops_before_max_tsc (f l0) m) ∈
      (P.map f).filterMap (fun l =>
        if ops_before_max_tsc l m = 0 then none
        else some (l.take (ops_before_max_tsc l m))) :=
    List.mem_filterMap.mpr ⟨f l0, hmemfm, by simp [hk]⟩
  have hne : (P.map f).filterMap (fun l =>
      if ops_before_max_tsc l m = 0 then none
      else some (l.take (ops_before_max_tsc l m))) ≠ [] := by
    intro habs
    rw [habs] at hcur
    cases hcur
  rw [ffmt_posns_ne_case f m P hne]

/-- C2 (confirmed): for every behaviour of `std::sort` and every bound
`max_tsc`, `mfs_logged_object::flush_finish_max_timestamp(max_tsc)` (as
invoked by `wait_synchronize` after the gather) runs exactly the pending
operations with timestamp strictly below `max_tsc`, in ascending
timestamp order; the run entries are erased from their original pending
loggers (logger `i`'s residue holds exactly its own entries with
timestamp `>= max_tsc`); the entries with timestamp `>= max_tsc` all
remain pending; and — whenever at least one operation was below the
bound, so that the merge runs — the pending loggers that are left empty
are removed from `pending_`. -/
theorem flush_finish_max_timestamp_spec (f : List Op → List Op)
    (hf : isStdSortOf f) (max_tsc : Nat) (pending_ : List (List Op)) :
    ((flush_finish_max_timestamp f max_tsc pending_).1).Perm
        (pending_.flatten.filter (fun o => decide (o.tsc < max_tsc))) ∧
      ((flush_finish_max_timestamp f max_tsc pending_).1).Pairwise opLe ∧
      (∀ i, i < pending_.length →
        ((mfs_residues f max_tsc pending_).getD i []).Perm
          ((pending_.getD i []).filter
            (fun o => !decide (o.tsc < max_tsc)))) ∧
      ((flush_finish_max_timestamp f max_tsc pending_).2).flatten.Perm
        (pending_.flatten.filter (fun o => !decide (o.tsc < max_tsc))) ∧
      ((∃ o ∈ pending_.flatten, o.tsc < max_tsc) →
        (flush_finish_max_timestamp f max_tsc pending_).2 =
          (mfs_residues f max_tsc pending_).filter (fun l => !l.isEmpty)) :=
  ⟨ffmt_ran_perm f hf max_tsc pending_,
    ffmt_ran_sorted f hf max_tsc pending_,
    fun i hi => mfs_residues_spec f hf max_tsc pending_ i hi,
    ffmt_pending_flatten f hf max_tsc pending_,
    fun h => ffmt_pending_eq f hf max_tsc pending_ h⟩

/-- Witness for C2: the partial-flush retention scenario — pending
loggers holding one operation at tsc 100 and one at tsc 200, flushed
with bound 150: the tsc-100 operation runs, the tsc-200 operation stays
in its own pending logger. -/
theorem flush_finish_max_timestamp_spec_witness :
    ((flush_finish_max_timestamp insSort 150 [[⟨100, 0⟩], [⟨200, 1⟩]]).1).Perm
        (([[⟨100, 0⟩], [⟨200, 1⟩]] : List (List Op)).flatten.filter
          (fun o => decide (o.tsc < 150))) ∧
      ((flush_finish_max_timestamp insSort 150
        [[⟨100, 0⟩], [⟨200, 1⟩]]).1).Pairwise opLe ∧
      (∀ i, i < ([[⟨100, 0⟩], [⟨200, 1⟩]] : List (List Op)).length →
        ((mfs_residues insSort 150 [[⟨100, 0⟩], [⟨200, 1⟩]]).getD i []).Perm
          ((([[⟨100, 0⟩], [⟨200, 1⟩]] : List (List Op)).getD i []).filter
            (fun o => !decide (o.tsc < 150)))) ∧
      ((flush_finish_max_timestamp insSort 150
          [[⟨100, 0⟩], [⟨200, 1⟩]]).2).flatten.Perm
        (([[⟨100, 0⟩], [⟨200, 1⟩]] : List (List Op)).flatten.filter
          (fun o => !decide (o.tsc < 150))) ∧
      ((∃ o ∈ ([[⟨100, 0⟩], [⟨200, 1⟩]] : List (List Op)).flatten,
          o.tsc < 150) →
        (flush_finish_max_timestamp insSort 150 [[⟨100, 0⟩], [⟨200, 1⟩]]).2 =
          (mfs_residues insSort 150 [[⟨100, 0⟩], [⟨200, 1⟩]]).filter
            (fun l => !l.isEmpty)) :=
  flush_finish_max_timestamp_spec insSort insSort_spec 150
    [[⟨100, 0⟩], [⟨200, 1⟩]]

theorem clear_loggers_iter_cpus (s : TscState) :
    (clear_loggers_iter s).cpus_ = s.cpus_ :=
  rfl

/-- `clear_loggers` never clears a bit of `cpus_`, so once a scan has
seen a set bit every later scan sees it too and the loop cannot exit. -/
theorem clear_loggers_loop_diverges :
    ∀ (fuel : Nat) (s : TscState), s.cpus_.any (fun b => b) = true →
      clear_loggers_loop fuel s = none := by
  intro fuel
  induction fuel with
  | zero => intro s _; rfl
  | succ fuel ih =>
    intro s h
    rw [clear_loggers_loop, if_pos h]
    exact ih _ (by rw [clear_loggers_iter_cpus]; exact h)

/-- C3 (code bug): destroying a `tsc_logged_object` while any CPU's bit
is still set in `cpus_` does not terminate.  The destructor clears
`pending_` and calls `clear_loggers`, whose rescan loop was copied from
the gather loop of `synchronize` — but without the
`cpus_.atomic_reset(cpu)` call.  Each scan resets the tagged ways'
loggers without running anything, yet the bits stay set, so `any` is
true on every rescan and the `while (1)` loop spins forever (no other
thread can clear the bits either: clearing requires `sync_lock_`, which
`clear_loggers` itself holds).  Evaluated on the state with
`cpus_ = {0}`, CPU 0's way holding one entry and one pending logger: no
fuel suffices for the destructor to return.  The second conjunct shows
one scan as the claim describes it: the tagged way's logger is reset,
nothing is run, but the bit survives. -/
theorem tsc_destructor_diverges :
    (∀ fuel : Nat,
        tsc_destructor fuel ⟨[true], [[⟨5, 0⟩]], [[⟨7, 1⟩]], []⟩ = none) ∧
      clear_loggers_iter ⟨[true], [[⟨5, 0⟩]], [], []⟩ =
        ⟨[true], [[]], [], []⟩ :=
  ⟨fun fuel => clear_loggers_loop_diverges fuel _ (by decide), by decide⟩

theorem rdtscp_true_none (v : Nat) :
    ∀ fuel, rdtscp true v fuel = none := by
  intro fuel
  induction fuel with
  | zero => rfl
  | succ fuel ih =>
    rw [rdtscp, if_pos rfl]
    exact ih

/-- C5 (code bug): when `cpuid::features().rdtscp` is true, the
unqualified `rdtscp()` call inside `tsc_logger::rdtscp` resolves to the
function itself, so it recurses forever — it never executes the
hardware `rdtscp` instruction and `push` neither terminates nor appends
a record, whatever the recursion depth.  When the feature is absent the
serialized-`rdtsc` path of the claim does hold: `push` terminates after
one call and appends exactly one record `(rdtsc_serialized(), cb)` at
the end of the log. -/
theorem push_rdtscp_diverges :
    (∀ (fuel v cb : Nat) (ops_ : List Op),
        push true v cb ops_ fuel = none) ∧
      (∀ (fuel v cb : Nat) (ops_ : List Op),
        push false v cb ops_ (fuel + 1) = some (ops_ ++ [⟨v, cb⟩])) := by
  constructor
  · intro fuel v cb ops_
    rw [push, rdtscp_true_none v fuel]
    rfl
  · intro fuel v cb ops_
    rfl

theorem read_tsc_loop_fresh (fuel count value : Nat) :
    read_tsc_loop fuel (read_begin count) count value 0 = 0 := by
  cases fuel with
  | zero => rfl
  | succ fuel =>
    rw [read_tsc_loop]
    simp [do_retry, need_retry, read_begin]

/-- Under no concurrent writer, both reader loops of the pre-gather scan
leave their local variables at the initialization value 0, whatever the
stored timestamps are, so the scan never enters the busy-wait. -/
theorem wait_scan_cpu_never_waits (sp ep : MfsTsc) (w fuel : Nat) :
    wait_scan_cpu sp ep w fuel = (0, 0, false) := by
  simp only [wait_scan_cpu, read_tsc_loop_fresh]
  rfl

/-- C4 (code bug; the `seqcount` reader is modelled from the spec, its
source not being part of src/): the claim is what `wait_synchronize` is
meant to do, but the scan reads its timestamps with
`while (r.do_retry()) v = ...;` — a `while` where the seqcount reader
protocol calls for a do/while.  With no concurrent writer the count
equals the snapshot, `do_retry` is false at once, the body never runs,
and the compared values stay at their local initialization `0`.
Evaluated on CPU 0 of a quiescent object after `update_start_tsc(0,100)`
and `update_end_tsc(0,50)` with `wait_tsc = 150`: the stored pair is
`(100, 50)` and satisfies `end < start < wait` (50 < 100 < 150), so per
the claim the scan should compare (100, 50) and wait — but it compares
(0, 0) and does not wait, for every loop fuel. -/
theorem wait_scan_reads_zero :
    ((update_end_tsc 0 50 (update_start_tsc 0 100 mfs_s0)).mfs_start_tsc.getD
        0 ⟨0, 0⟩).tsc_value = 100 ∧
      ((update_end_tsc 0 50 (update_start_tsc 0 100 mfs_s0)).mfs_end_tsc.getD
        0 ⟨0, 0⟩).tsc_value = 50 ∧
      (50 < 100 ∧ 100 < 150) ∧
      ∀ fuel : Nat,
        wait_scan_cpu
          ((update_end_tsc 0 50
            (update_start_tsc 0 100 mfs_s0)).mfs_start_tsc.getD 0 ⟨0, 0⟩)
          ((update_end_tsc 0 50
            (update_start_tsc 0 100 mfs_s0)).mfs_end_tsc.getD 0 ⟨0, 0⟩)
          150 fuel = (0, 0, false) :=
  ⟨by decide, by decide, by decide,
    fun fuel => wait_scan_cpu_never_waits _ _ 150 fuel⟩

theorem flush_finish_posns_nil_case (f : List Op → List Op)
    (P : List (List Op))
    (h : (P.map (fun l => if l.isEmpty then l else f l)).filter
        (fun l => !l.isEmpty) = []) :
    flush_finish f P =
      ([], P.map (fun l => if l.isEmpty then l else f l)) := by
  cases P with
  | nil => rfl
  | cons p ps =>
    rw [flush_finish]
    simp only [List.isEmpty_cons, Bool.false_eq_true, if_false,
      List.map_cons] at h ⊢
    rw [h]
    simp

theorem flush_finish_posns_ne_case (f : List Op → List Op)
    (P : List (List Op))
    (h : (P.map (fun l => if l.isEmpty then l else f l)).filter
        (fun l => !l.isEmpty) ≠ []) :
    flush_finish f P =
      (kmerge ((P.map (fun l => if l.isEmpty then l else f l)).filter
          (fun l => !l.isEmpty)).flatten.length
        ((P.map (fun l => if l.isEmpty then l else f l)).filter
          (fun l => !l.isEmpty)), []) := by
  cases P with
  | nil => exact absurd rfl h
  | cons p ps =>
    rw [flush_finish]
    simp only [List.isEmpty_cons, Bool.false_eq_true, if_false,
      List.map_cons] at h ⊢
    have hb : ¬ ((((if p.isEmpty then p else f p) ::
        ps.map (fun l => if l.isEmpty then l else f l)).filter
          (fun l => !l.isEmpty)).isEmpty = true) := by
      simpa [List.isEmpty_iff] using h
    rw [if_neg hb]

/-- Whatever `flush_finish` leaves in `pending_` consists of empty
loggers only: either it cleared `pending_`, or it returned early with
every pending logger already empty. -/
theorem flush_finish_pending_all_nil (f : List Op → List Op)
    (P : List (List Op)) : ∀ l ∈ (flush_finish f P).2, l = [] := by
  by_cases h : (P.map (fun l => if l.isEmpty then l else f l)).filter
      (fun l => !l.isEmpty) = []
  · rw [flush_finish_posns_nil_case f P h]
    intro l hl
    have := List.filter_eq_nil_iff.mp h l hl
    simpa using this
  · rw [flush_finish_posns_ne_case f P h]
    intro l hl
    cases hl

theorem flush_finish_of_all_nil (f : List Op → List Op)
    (P : List (List Op)) (hall : ∀ l ∈ P, l = []) :
    flush_finish f P = ([], P) := by
  have hmap : P.map (fun l => if l.isEmpty then l else f l) = P := by
    have h1 : ∀ l ∈ P, (if l.isEmpty then l else f l) = l := by
      intro l hl
      rw [hall l hl]
      rfl
    rw [List.map_congr_left h1]
    exact List.map_id _
  have hfil : (P.map (fun l => if l.isEmpty then l else f l)).filter
      (fun l => !l.isEmpty) = [] := by
    rw [hmap]
    refine List.filter_eq_nil_iff.mpr ?_
    intro l hl
    rw [hall l hl]
    simp
  rw [flush_finish_posns_nil_case f P hfil, hmap]

/-- A second `flush_finish` on whatever the first left in `pending_`
runs nothing and changes nothing. -/
theorem flush_finish_idem (f : List Op → List Op) (P : List (List Op)) :
    flush_finish f ((flush_finish f P).2) = ([], (flush_finish f P).2) :=
  flush_finish_of_all_nil f _ (flush_finish_pending_all_nil f P)

theorem range_map_getD (L : List (List Op)) :
    (List.range L.length).map (fun i => L.getD i []) = L := by
  induction L with
  | nil => rfl
  | cons l t ih =>
    rw [List.length_cons, List.range_succ_eq_map, List.map_cons,
      List.map_map]
    have h1 : ((fun i => (l :: t).getD i []) ∘ Nat.succ) =
        fun i => t.getD i [] := by
      funext i
      rfl
    rw [h1, ih]
    rfl

/-- When no CPU bit is set, the gather scan of `synchronize` does
nothing. -/
theorem gather_pass_no_bits {s : TscState}
    (hb : ∀ b ∈ s.cpus_, b = false)
    (hlen : s.ways.length = s.cpus_.length) :
    gather_pass s = s := by
  have hget : ∀ i, s.cpus_.getD i false = false := by
    intro i
    by_cases hi : i < s.cpus_.length
    · rw [List.getD_eq_getElem _ _ hi]
      exact hb _ (List.getElem_mem hi)
    · rw [List.getD_eq_getElem?_getD, List.getElem?_eq_none
        (Nat.le_of_not_lt hi)]
      rfl
  ext : 1
  · have h1 : ∀ b ∈ s.cpus_, (if b then false else b) = b := by
      intro b hbm
      rw [hb b hbm]
      rfl
    calc s.cpus_.map (fun b => if b then false else b)
        = s.cpus_.map (fun b => b) := List.map_congr_left h1
      _ = s.cpus_ := List.map_id _
  · show (List.range s.cpus_.length).map (fun i =>
        if s.cpus_.getD i false then [] else s.ways.getD i []) = s.ways
    simp only [hget, Bool.false_eq_true, if_false]
    rw [← hlen, range_map_getD]
  · show s.pending_ ++ (List.range s.cpus_.length).filterMap (fun i =>
        if s.cpus_.getD i false then some (s.ways.getD i []) else none) =
      s.pending_
    simp only [hget, Bool.false_eq_true, if_false]
    rw [List.filterMap_eq_nil_iff.mpr (fun a _ => rfl), List.append_nil]
  · rfl

theorem synchronize_cpus_false (f : List Op → List Op) (s : TscState) :
    ∀ b ∈ (synchronize f s).cpus_, b = false := by
  intro b hbm
  have hbm' : b ∈ s.cpus_.map (fun b => if b then false else b) := hbm
  rcases List.mem_map.mp hbm' with ⟨b0, _, rfl⟩
  cases b0 <;> rfl

theorem synchronize_ways_len (f : List Op → List Op) (s : TscState) :
    (synchronize f s).ways.length = (synchronize f s).cpus_.length := by
  show ((List.range s.cpus_.length).map _).length = (s.cpus_.map _).length
  simp

/-- C9 (confirmed): calling `synchronize` a second time with no
intervening `get_logger` is a no-op on the object state (sequential
semantics; any behaviour of `std::sort`).  After the first call every
bit of `cpus_` is clear, so the second gather scan flushes nothing and
exits at once; `pending_` holds either nothing or only empty loggers,
so the second `flush_finish` returns early without running any logged
operation; `cpus_`, the cached ways, `pending_` and the trace of applied
operations are left exactly as the first call left them. -/
theorem synchronize_idempotent (f : List Op → List Op) (s : TscState) :
    synchronize f (synchronize f s) = synchronize f s := by
  have hfix : gather_pass (synchronize f s) = synchronize f s :=
    gather_pass_no_bits (synchronize_cpus_false f s)
      (synchronize_ways_len f s)
  rw [synchronize, hfix]
  have hff : flush_finish f ((synchronize f s).pending_) =
      ([], (synchronize f s).pending_) :=
    flush_finish_idem f (gather_pass s).pending_
  rw [flush_finish_state, hff]
  ext : 1
  · rfl
  · rfl
  · rfl
  · show (synchronize f s).applied ++ [] = (synchronize f s).applied
    exact List.append_nil _

/-- C10 (confirmed): the frame of the per-CPU timestamp writers.
`update_start_tsc(cpu, ts)` changes only `mfs_start_tsc[cpu]` — storing
`ts` and advancing that slot's sequence counter by two — and
`update_end_tsc(cpu, ts)` changes only `mfs_end_tsc[cpu]`; `cpus_`, the
cached ways, `pending_`, the trace of applied operations (no logged
operation is run or flushed), the other timestamp array, and every other
CPU's slot are unchanged. -/
theorem update_tsc_frame (cpu ts : Nat) (s : MfsState) :
    ((update_start_tsc cpu ts s).cpus_ = s.cpus_ ∧
      (update_start_tsc cpu ts s).ways = s.ways ∧
      (update_start_tsc cpu ts s).pending_ = s.pending_ ∧
      (update_start_tsc cpu ts s).applied = s.applied ∧
      (update_start_tsc cpu ts s).mfs_end_tsc = s.mfs_end_tsc ∧
      (∀ j, j ≠ cpu →
        (update_start_tsc cpu ts s).mfs_start_tsc.getD j ⟨0, 0⟩ =
          s.mfs_start_tsc.getD j ⟨0, 0⟩) ∧
      (cpu < s.mfs_start_tsc.length →
        (update_start_tsc cpu ts s).mfs_start_tsc.getD cpu ⟨0, 0⟩ =
          ⟨ts, (s.mfs_start_tsc.getD cpu ⟨0, 0⟩).seq + 2⟩)) ∧
    ((update_end_tsc cpu ts s).cpus_ = s.cpus_ ∧
      (update_end_tsc cpu ts s).ways = s.ways ∧
      (update_end_tsc cpu ts s).pending_ = s.pending_ ∧
      (update_end_tsc cpu ts s).applied = s.applied ∧
      (update_end_tsc cpu ts s).mfs_start_tsc = s.mfs_start_tsc ∧
      (∀ j, j ≠ cpu →
        (update_end_tsc cpu ts s).mfs_end_tsc.getD j ⟨0, 0⟩ =
          s.mfs_end_tsc.getD j ⟨0, 0⟩) ∧
      (cpu < s.mfs_end_tsc.length →
        (update_end_tsc cpu ts s).mfs_end_tsc.getD cpu ⟨0, 0⟩ =
          ⟨ts, (s.mfs_end_tsc.getD cpu ⟨0, 0⟩).seq + 2⟩)) := by
  refine ⟨⟨rfl, rfl, rfl, rfl, rfl, ?_, ?_⟩,
    ⟨rfl, rfl, rfl, rfl, rfl, ?_, ?_⟩⟩
  · intro j hj
    show (s.mfs_start_tsc.set cpu _).getD j ⟨0, 0⟩ =
      s.mfs_start_tsc.getD j ⟨0, 0⟩
    rw [List.getD_eq_getElem?_getD, List.getD_eq_getElem?_getD,
      List.getElem?_set_ne (fun h => hj h.symm),
      ← List.getD_eq_getElem?_getD]
  · intro hcpu
    show (s.mfs_start_tsc.set cpu _).getD cpu ⟨0, 0⟩ = _
    rw [List.getD_eq_getElem?_getD, List.getElem?_set_self hcpu]
    rfl
  · intro j hj
    show (s.mfs_end_tsc.set cpu _).getD j ⟨0, 0⟩ =
      s.mfs_end_tsc.getD j ⟨0, 0⟩
    rw [List.getD_eq_getElem?_getD, List.getD_eq_getElem?_getD,
      List.getElem?_set_ne (fun h => hj h.symm),
      ← List.getD_eq_getElem?_getD]
  · intro hcpu
    show (s.mfs_end_tsc.set cpu _).getD cpu ⟨0, 0⟩ = _
    rw [List.getD_eq_getElem?_getD, List.getElem?_set_self hcpu]
    rfl

theorem update_tsc_frame_witness :
    (update_start_tsc 0 5 mfs_s0).mfs_start_tsc.getD 1 ⟨0, 0⟩ =
        mfs_s0.mfs_start_tsc.getD 1 ⟨0, 0⟩ ∧
      (update_start_tsc 0 5 mfs_s0).mfs_start_tsc.getD 0 ⟨0, 0⟩ =
        ⟨5, (mfs_s0.mfs_start_tsc.getD 0 ⟨0, 0⟩).seq + 2⟩ ∧
      (update_end_tsc 0 5 mfs_s0).applied = mfs_s0.applied :=
  ⟨(update_tsc_frame 0 5 mfs_s0).1.2.2.2.2.2.1 1 (by decide),
    (update_tsc_frame 0 5 mfs_s0).1.2.2.2.2.2.2 (by decide),
    (update_tsc_frame 0 5 mfs_s0).2.2.2.2.1⟩

end Oplog
